import Mathlib

/-!
Verification of the `lazy-sort` crate (`src/lib.rs`): two lazily evaluated sort
iterators, a recursive quicksort-based one (`QuickSort` / `QuickSortInternal` /
`Recursive`) and a heap-based one (`HeapSort`).

The Rust code is shallowly embedded here:
  * `Vec<T>` becomes `List α` (index 0 is the front; `Vec::pop` removes the last
    element, i.e. `getLast?` / `dropLast`).
  * The enum `QuickSortInternal { Base(Vec<T>), Recursive(Recursive<T>) }`,
    where `Recursive { greater: Vec<T>, less: Option<Box<QuickSortInternal<T>>> }`,
    is flattened into a three-constructor inductive: `Base v`, `RecNone greater`
    (for `less == None`) and `RecSome greater less` (for `less == Some(..)`).
    This avoids recursion through `Option` while keeping the same states.
  * Rust's mutating `next(&mut self) -> Option<T>` becomes a pure step function
    returning the produced value together with the successor state.
  * `T: Ord` becomes `[LinearOrder α]`.
-/

set_option maxRecDepth 10000
set_option linter.unusedSectionVars false
set_option linter.unnecessarySimpa false
set_option linter.unusedVariables false

namespace LazySort

variable {α : Type} [LinearOrder α]

/-- Embedding of the crate's `insertion_sort` inner loop (copied in the source
from `libcollections/slice.rs`) specialised to the comparator `|a, b| b.cmp(a)`
used at both call sites: the element `x` is moved left past every element
strictly less than it, so it is inserted in front of the first strictly
smaller element of the (descending-sorted) prefix. -/
def insertDesc (x : α) : List α → List α
  | [] => [x]
  | y :: ys => if y < x then x :: y :: ys else y :: insertDesc x ys

/-- Embedding of `insertion_sort(&mut v, |a, b| b.cmp(a))`: a left-to-right
scan inserting each element into the already descending-sorted prefix. -/
def insertion_sort (v : List α) : List α :=
  v.foldl (fun acc x => insertDesc x acc) []

/-- Embedding of `slice::swap(i, j)`: exchange the elements at positions `i`
and `j`; out-of-bounds indices leave the list unchanged (the source only ever
swaps in-bounds indices). -/
def swapList (l : List α) (i j : Nat) : List α :=
  match l.get? i, l.get? j with
  | some a, some b => (l.set i b).set j a
  | _, _ => l

/-- Modelled from the spec: `itertools::partition` is an external collaborator
(not part of `src/`). Per section 4.1 of the spec it rearranges the slice in
place so that every element satisfying the predicate appears before every
element that does not, and returns the index of the first non-satisfying
element (equivalently, the number of satisfying elements). We model the
resulting arrangement as the satisfying elements followed by the others. -/
def partition (p : α → Bool) (l : List α) : List α × Nat :=
  (l.filter p ++ l.filter (fun x => !(p x)), (l.filter p).length)

/-- The state of the lazy quicksort: Rust's
`enum QuickSortInternal { Base(Vec<T>), Recursive(Recursive<T>) }` with
`struct Recursive { greater: Vec<T>, less: Option<Box<QuickSortInternal<T>>> }`.
`Base v` is `Base`, `RecNone g` is `Recursive { greater: g, less: None }` and
`RecSome g l` is `Recursive { greater: g, less: Some(l) }`. -/
inductive QuickSortInternal (α : Type) where
  | Base (v : List α)
  | RecNone (greater : List α)
  | RecSome (greater : List α) (less : QuickSortInternal α)
deriving DecidableEq

namespace QuickSortInternal

/-- Embedding of `QuickSortInternal::new`: pools of length at most 32 are
insertion-sorted descending and stored as `Base`; longer pools become a
`Recursive` node with `less = None` (`Recursive::new`). -/
def new (v : List α) : QuickSortInternal α :=
  if v.length ≤ 32 then Base (insertion_sort v) else RecNone v

/-- Embedding of `Recursive::split_greater`, with the construction of the
`less` child (`QuickSortInternal::new`) and the single `less.next()` call it
performs inlined, so that the recursion is structural in a fuel argument.
The fuel is an upper bound on the pool length; the `0` row is unreachable
whenever `fuel + 1 ≥ length` (proved below). Matching the source: for a pool
of length `n ≥ 2`, the middle element is swapped into the last position and
taken as the pivot, the rest is partitioned by `el > pivot`, the pivot is
swapped with the first not-greater element, and the tail beyond the pivot is
split off as the `less` pool; if nothing is less-or-equal, the pivot itself
is popped and returned. -/
def sgAux : Nat → List α → Option α × QuickSortInternal α
  | _, [] => (none, RecNone [])
  | _, [x] => (some x, RecNone [])
  | 0, g => (none, RecNone g)
  | fuel+1, a :: b :: rest =>
    let g := a :: b :: rest
    let n := g.length
    let g1 := swapList g (n - 1) (n / 2)
    let pivot := g1.getLastD a
    let pr := LazySort.partition (fun el => decide (pivot < el)) g1.dropLast
    let splitIdx := pr.2
    let v2 := swapList (pr.1 ++ [pivot]) (n - 1) splitIdx
    if splitIdx + 1 < n then
      let lessVec := v2.drop (splitIdx + 1)
      let newGreater := v2.take (splitIdx + 1)
      if lessVec.length ≤ 32 then
        let sorted := insertion_sort lessVec
        (sorted.getLast?, RecSome newGreater (Base sorted.dropLast))
      else
        ((sgAux fuel lessVec).1, RecSome newGreater (sgAux fuel lessVec).2)
    else
      (v2.getLast?, RecNone v2.dropLast)

/-- Embedding of `Recursive::split_greater` on a `Recursive` node with
`less = None` holding the pool `g` (the fuel `g.length` always suffices). -/
def split_greater (g : List α) : Option α × QuickSortInternal α :=
  sgAux g.length g

/-- Embedding of `Iterator::next` for `QuickSortInternal` and `Recursive`:
`Base` pops from the end of its pre-sorted buffer; a `Recursive` node with no
`less` child runs `split_greater`; with a `less` child it delegates to the
child, and once the child is exhausted it clears the link and pops the pivot
(the last element of `greater`). -/
def next : QuickSortInternal α → Option α × QuickSortInternal α
  | Base v => (v.getLast?, Base v.dropLast)
  | RecNone g => split_greater g
  | RecSome g l =>
    match next l with
    | (some x, l2) => (some x, RecSome g l2)
    | (none, _) => (g.getLast?, RecNone g.dropLast)

/-- Embedding of `size_hint` for `QuickSortInternal` and `Recursive`:
`Base` and a childless `Recursive` report their buffer length exactly; with a
child, the child's bounds are shifted by `greater.len()`. -/
def size_hint : QuickSortInternal α → Nat × Option Nat
  | Base v => (v.length, some v.length)
  | RecNone g => (g.length, some g.length)
  | RecSome g l => ((size_hint l).1 + g.length, (size_hint l).2.map (fun u => u + g.length))

/-- The multiset of elements still held by a state, as a list (the `greater`
buffer followed by the elements of the `less` child). -/
def elems : QuickSortInternal α → List α
  | Base v => v
  | RecNone g => g
  | RecSome g l => g ++ elems l

/-- Iterating `next` a given number of times, keeping only the state. -/
def stepN (s : QuickSortInternal α) : Nat → QuickSortInternal α
  | 0 => s
  | i+1 => stepN (next s).2 i

/-- Fuel-driven draining of a state: collect produced values until `next`
returns `none` or the fuel runs out. -/
def toListAux : Nat → QuickSortInternal α → List α
  | 0, _ => []
  | f+1, s =>
    match next s with
    | (some x, s2) => x :: toListAux f s2
    | (none, _) => []

/-- Full drain of a state (the fuel `elems.length` always suffices). -/
def toList (s : QuickSortInternal α) : List α :=
  toListAux s.elems.length s

end QuickSortInternal

/-- Embedding of `LazySortIterator::quick_sort`: the public `QuickSort<T>`
iterator is a newtype delegating `next` and `size_hint` to its inner
`QuickSortInternal`, so we identify the two; the input iterator is
materialised as a list. -/
def quick_sort (v : List α) : QuickSortInternal α :=
  QuickSortInternal.new v

/-- The full output sequence of the lazy quicksort iterator on input `v`. -/
def quickSorted (v : List α) : List α :=
  (quick_sort v).toList

/-- The ascending sort of a list under the standard order, used as the
specification-side fully sorted sequence. -/
def sortAsc (v : List α) : List α :=
  List.insertionSort (fun a b => a ≤ b) v

/-- Modelled from the spec: the fully sorted sequence in the descending
direction that the spec documents for the quicksort strategy (sections 4.2
and 8). Used only to state the claims that mention that direction. -/
def sortDesc (v : List α) : List α :=
  List.insertionSort (fun a b => b ≤ a) v

/-- Modelled from the spec: `std::collections::BinaryHeap` is an external
collaborator (not part of `src/`). `HeapSort<T>` wraps a max-heap of
`ReverseOrder<T>` values, whose `Ord` instance (`other.0.cmp(&self.0)`)
reverses the comparison, so each `pop` yields the least remaining element.
We model the heap state by the ascending-sorted list of its elements and a
pop by taking the head. -/
structure HeapSort (α : Type) where
  elems : List α

/-- Embedding of `LazySortIterator::heap_sort`: collect the input, wrap each
element in `ReverseOrder` and build the heap (modelled as sorting ascending). -/
def heap_sort (v : List α) : HeapSort α :=
  ⟨sortAsc v⟩

namespace HeapSort

/-- Embedding of `Iterator::next` for `HeapSort`: `self.0.pop()` unwrapped,
i.e. remove and return the least remaining element. -/
def next : HeapSort α → Option α × HeapSort α
  | ⟨[]⟩ => (none, ⟨[]⟩)
  | ⟨x :: t⟩ => (some x, ⟨t⟩)

/-- Embedding of `size_hint` for `HeapSort`: the exact heap occupancy. -/
def size_hint (s : HeapSort α) : Nat × Option Nat :=
  (s.elems.length, some s.elems.length)

/-- Iterating `next` a given number of times, keeping only the state. -/
def stepN (s : HeapSort α) : Nat → HeapSort α
  | 0 => s
  | i+1 => stepN (next s).2 i

/-- Full drain of the heap iterator. -/
def toList (s : HeapSort α) : List α :=
  s.elems

end HeapSort

/-- The full output sequence of the lazy heap-sort iterator on input `v`. -/
def heapSorted (v : List α) : List α :=
  (heap_sort v).toList

/-- Wellformedness invariant of quicksort states, satisfied by the initial
state and preserved by `next`: `Base` buffers are sorted descending; whenever
a `less` child is present the `greater` buffer is nonempty, every element of
the child is at most the pivot (the last element of `greater`), and the pivot
is at most every other element of `greater`. -/
def WF : QuickSortInternal α → Prop
  | .Base v => List.Sorted (fun x y => y ≤ x) v
  | .RecNone _ => True
  | .RecSome g l => WF l ∧ g ≠ [] ∧
      (∀ y ∈ l.elems, ∀ p, g.getLast? = some p → y ≤ p) ∧
      (∀ p, g.getLast? = some p → ∀ z ∈ g.dropLast, p ≤ z)

/-- Decidable check of the claim that every element of a `less` child is
strictly less than the pivot above it (the last element of the parent's
`greater` buffer), checked at every node of the chain. -/
def lessChainStrict : QuickSortInternal α → Bool
  | .Base _ => true
  | .RecNone _ => true
  | .RecSome g l =>
      lessChainStrict l &&
      (match g.getLast? with
       | none => true
       | some p => l.elems.all (fun y => decide (y < p)))

/-- Decidable check of the corrected invariant: every element of a `less`
child is at most the pivot above it. -/
def lessChainLe : QuickSortInternal α → Bool
  | .Base _ => true
  | .RecNone _ => true
  | .RecSome g l =>
      lessChainLe l &&
      (match g.getLast? with
       | none => true
       | some p => l.elems.all (fun y => decide (y ≤ p)))



/-! ### List helper lemmas -/

theorem getQ_append_len (xs : List α) (x : α) (ys : List α) :
    (xs ++ x :: ys).get? xs.length = some x := by
  induction xs with
  | nil => rfl
  | cons a t ih => simpa using ih

theorem set_append_len (xs : List α) (x b : α) (ys : List α) :
    (xs ++ x :: ys).set xs.length b = xs ++ b :: ys := by
  induction xs with
  | nil => rfl
  | cons a t ih => simp [List.set, ih]

theorem take_append_len (xs : List α) (x : α) (ys : List α) :
    (xs ++ x :: ys).take (xs.length + 1) = xs ++ [x] := by
  induction xs with
  | nil => rfl
  | cons a t ih => simpa using ih

theorem drop_append_len (xs : List α) (x : α) (ys : List α) :
    (xs ++ x :: ys).drop (xs.length + 1) = ys := by
  induction xs with
  | nil => rfl
  | cons a t ih => simpa using ih

theorem swapList_length (l : List α) (i j : Nat) :
    (swapList l i j).length = l.length := by
  unfold swapList
  split
  · simp
  · rfl

theorem cons_set_perm (t : List α) (k : Nat) (a c : α) (h : t.get? k = some c) :
    (c :: t.set k a).Perm (a :: t) := by
  induction t generalizing k with
  | nil => simp at h
  | cons y s ih =>
    cases k with
    | zero =>
      simp only [List.get?] at h
      injection h with h
      subst h
      have e : (y :: s).set 0 a = a :: s := by simp [List.set]
      rw [e]
      exact List.Perm.swap a y s
    | succ m =>
      simp only [List.get?] at h
      have step := ih m h
      have e : (y :: s).set (m + 1) a = y :: s.set m a := by simp [List.set]
      rw [e]
      exact ((List.Perm.swap y c _).trans (step.cons y)).trans (List.Perm.swap a y s)

theorem set_set_perm (l : List α) (i j : Nat) (a b : α)
    (ha : l.get? i = some a) (hb : l.get? j = some b) :
    ((l.set i b).set j a).Perm l := by
  induction l generalizing i j with
  | nil => simp at ha
  | cons x t ih =>
    cases i with
    | zero =>
      simp only [List.get?] at ha
      injection ha with ha
      subst ha
      cases j with
      | zero =>
        simp only [List.get?] at hb
        injection hb with hb
        subst hb
        have e : ((x :: t).set 0 x).set 0 x = x :: t := by simp [List.set]
        rw [e]
      | succ m =>
        simp only [List.get?] at hb
        have e : ((x :: t).set 0 b).set (m + 1) x = b :: t.set m x := by
          simp [List.set]
        rw [e]
        exact cons_set_perm t m x b hb
    | succ k =>
      simp only [List.get?] at ha
      cases j with
      | zero =>
        simp only [List.get?] at hb
        injection hb with hb
        subst hb
        have e : ((x :: t).set (k + 1) x).set 0 a = a :: t.set k x := by
          simp [List.set]
        rw [e]
        exact cons_set_perm t k x a ha
      | succ m =>
        simp only [List.get?] at hb
        have e : ((x :: t).set (k + 1) b).set (m + 1) a = x :: (t.set k b).set m a := by
          simp [List.set]
        rw [e]
        exact (ih k m ha hb).cons x

theorem swapList_perm (l : List α) (i j : Nat) : (swapList l i j).Perm l := by
  unfold swapList
  split
  · exact set_set_perm _ _ _ _ _ (by assumption) (by assumption)
  · exact List.Perm.refl _

theorem dropLast_append_getLastD (l : List α) (d : α) (h : l ≠ []) :
    l.dropLast ++ [l.getLastD d] = l := by
  induction l generalizing d with
  | nil => exact absurd rfl h
  | cons a t ih =>
    cases t with
    | nil => rfl
    | cons b s =>
      have h2 := ih (d := a) (by simp)
      calc (a :: b :: s).dropLast ++ [(a :: b :: s).getLastD d]
          = a :: ((b :: s).dropLast ++ [(b :: s).getLastD a]) := by
            simp [List.dropLast, List.getLastD]
        _ = a :: (b :: s) := by rw [h2]

theorem dropLast_append_of_getLast? (l : List α) (m : α) (h : l.getLast? = some m) :
    l.dropLast ++ [m] = l := by
  have hne : l ≠ [] := by
    intro hnil
    subst hnil
    simp at h
  have hD : l.getLastD m = m := by
    rw [List.getLastD_eq_getLast?, h]
    rfl
  have := dropLast_append_getLastD l m hne
  rwa [hD] at this

theorem getLast?_isSome_of_ne_nil (l : List α) (h : l ≠ []) :
    ∃ m, l.getLast? = some m := by
  cases hl : l.getLast? with
  | none => exact absurd (List.getLast?_eq_none_iff.mp hl) h
  | some m => exact ⟨m, rfl⟩

theorem mem_of_getLast?_eq (l : List α) (m : α) (h : l.getLast? = some m) : m ∈ l := by
  have := dropLast_append_of_getLast? l m h
  rw [← this]
  simp

/-! ### Insertion sort lemmas -/

theorem insertDesc_perm (x : α) (l : List α) : (insertDesc x l).Perm (x :: l) := by
  induction l with
  | nil => exact List.Perm.refl _
  | cons y ys ih =>
    unfold insertDesc
    split
    · exact List.Perm.refl _
    · exact (ih.cons y).trans (List.Perm.swap x y ys)

theorem sorted_insertDesc (x : α) (l : List α)
    (h : List.Sorted (fun u v => v ≤ u) l) :
    List.Sorted (fun u v => v ≤ u) (insertDesc x l) := by
  induction l with
  | nil => simp [insertDesc]
  | cons y ys ih =>
    rw [List.sorted_cons] at h
    unfold insertDesc
    split
    · rename_i hyx
      rw [List.sorted_cons]
      refine ⟨?_, ?_⟩
      · intro b hb
        rcases List.mem_cons.mp hb with hb | hb
        · exact hb ▸ le_of_lt hyx
        · exact le_trans (h.1 b hb) (le_of_lt hyx)
      · rw [List.sorted_cons]
        exact h
    · rename_i hyx
      rw [List.sorted_cons]
      refine ⟨?_, ih h.2⟩
      intro b hb
      have hb2 : b ∈ x :: ys := (insertDesc_perm x ys).subset hb
      rcases List.mem_cons.mp hb2 with hb2 | hb2
      · exact hb2 ▸ le_of_not_lt hyx
      · exact h.1 b hb2

theorem foldl_insertDesc_perm (v acc : List α) :
    (v.foldl (fun acc x => insertDesc x acc) acc).Perm (v ++ acc) := by
  induction v generalizing acc with
  | nil => simp
  | cons x t ih =>
    simp only [List.foldl_cons]
    have h1 := ih (insertDesc x acc)
    have h2 : (t ++ insertDesc x acc).Perm (t ++ x :: acc) :=
      List.Perm.append_left t (insertDesc_perm x acc)
    have h3 : (t ++ x :: acc).Perm (x :: (t ++ acc)) := List.perm_middle
    exact ((h1.trans h2).trans h3)

theorem insertion_sort_perm (v : List α) : (insertion_sort v).Perm v := by
  have := foldl_insertDesc_perm v []
  simpa [insertion_sort] using this

theorem foldl_insertDesc_sorted (v acc : List α)
    (h : List.Sorted (fun u w => w ≤ u) acc) :
    List.Sorted (fun u w => w ≤ u) (v.foldl (fun acc x => insertDesc x acc) acc) := by
  induction v generalizing acc with
  | nil => exact h
  | cons x t ih =>
    simp only [List.foldl_cons]
    exact ih _ (sorted_insertDesc x acc h)

theorem sorted_insertion_sort (v : List α) :
    List.Sorted (fun u w => w ≤ u) (insertion_sort v) :=
  foldl_insertDesc_sorted v [] (by simp)

theorem insertion_sort_length (v : List α) :
    (insertion_sort v).length = v.length :=
  (insertion_sort_perm v).length_eq

theorem sortedDesc_getLast_min (v : List α)
    (h : List.Sorted (fun u w => w ≤ u) v) (m : α) (hm : v.getLast? = some m) :
    ∀ y ∈ v, m ≤ y := by
  induction v with
  | nil => simp at hm
  | cons a t ih =>
    cases t with
    | nil =>
      simp only [List.getLast?_singleton] at hm
      injection hm with hm
      subst hm
      intro y hy
      simp only [List.mem_singleton] at hy
      exact hy ▸ le_refl a
    | cons b s =>
      rw [List.sorted_cons] at h
      have hm2 : (b :: s).getLast? = some m := by
        rw [← hm]
        rfl
      intro y hy
      rcases List.mem_cons.mp hy with hy | hy
      · exact hy ▸ h.1 m (mem_of_getLast?_eq _ _ hm2)
      · exact ih h.2 hm2 y hy

/-! ### Unfolding lemmas for the split step -/

theorem swapList_eq_of_get (l : List α) (i j : Nat) (x y : α)
    (hx : l.get? i = some x) (hy : l.get? j = some y) :
    swapList l i j = (l.set i y).set j x := by
  unfold swapList
  rw [hx, hy]

namespace QuickSortInternal

theorem sgAux_nil (fuel : Nat) : sgAux (α := α) fuel [] = (none, RecNone []) := by
  cases fuel <;> rfl

theorem sgAux_singleton (fuel : Nat) (x : α) :
    sgAux fuel [x] = (some x, RecNone []) := by
  cases fuel <;> rfl

theorem sgAux_cons₂ (fuel : Nat) (a b : α) (rest : List α) (g1 : List α) (pivot : α)
    (gtr leq : List α)
    (hg1 : g1 = swapList (a :: b :: rest) (rest.length + 1) ((rest.length + 1 + 1) / 2))
    (hpiv : pivot = g1.getLastD a)
    (hgtr : gtr = g1.dropLast.filter (fun el => decide (pivot < el)))
    (hleq : leq = g1.dropLast.filter (fun el => !(decide (pivot < el)))) :
    sgAux (fuel + 1) (a :: b :: rest) =
      match leq with
      | [] => (some pivot, RecNone gtr)
      | w :: leqt =>
        if leqt.length + 1 ≤ 32 then
          ((insertion_sort (leqt ++ [w])).getLast?,
            RecSome (gtr ++ [pivot]) (Base ((insertion_sort (leqt ++ [w])).dropLast)))
        else
          ((sgAux fuel (leqt ++ [w])).1,
            RecSome (gtr ++ [pivot]) ((sgAux fuel (leqt ++ [w])).2)) := by
  have hlen_g1 : g1.length = rest.length + 1 + 1 := by
    rw [hg1, swapList_length]
    simp
  have hg1ne : g1 ≠ [] := by
    intro h
    rw [h] at hlen_g1
    simp at hlen_g1
  have hdecomp : g1.dropLast ++ [pivot] = g1 := by
    rw [hpiv]
    exact dropLast_append_getLastD _ _ hg1ne
  have hlen_dl : g1.dropLast.length = rest.length + 1 := by
    have hcg := congrArg List.length hdecomp
    rw [List.length_append] at hcg
    simp only [List.length_singleton] at hcg
    omega
  have hlen_fil : gtr.length + leq.length = rest.length + 1 := by
    have hp := List.filter_append_perm (fun el => decide (pivot < el)) g1.dropLast
    have hpl := hp.length_eq
    rw [List.length_append] at hpl
    rw [hgtr, hleq, ← hlen_dl]
    exact hpl
  simp only [sgAux, List.length_cons, Nat.add_sub_cancel]
  simp only [← hg1]
  simp only [← hpiv]
  simp only [LazySort.partition]
  simp only [← hgtr, ← hleq]
  cases leq with
  | nil =>
    have hG : gtr.length = rest.length + 1 := by simpa using hlen_fil
    rw [if_neg (by omega)]
    simp only [List.append_nil]
    rw [← hG]
    have hget : (gtr ++ [pivot]).get? gtr.length = some pivot := getQ_append_len gtr pivot []
    have hswap : swapList (gtr ++ [pivot]) gtr.length gtr.length = gtr ++ [pivot] := by
      rw [swapList_eq_of_get _ _ _ _ _ hget hget]
      rw [set_append_len gtr pivot pivot [], set_append_len gtr pivot pivot []]
    rw [hswap]
    rw [List.getLast?_concat, List.dropLast_concat]
  | cons w leqt =>
    have hGl : gtr.length + (leqt.length + 1) = rest.length + 1 := by simpa using hlen_fil
    rw [if_pos (by omega)]
    have hlen2 : (gtr ++ w :: leqt).length = rest.length + 1 := by
      simp only [List.length_append, List.length_cons]
      omega
    have hget1 : ((gtr ++ w :: leqt) ++ [pivot]).get? (rest.length + 1) = some pivot := by
      rw [← hlen2]
      exact getQ_append_len (gtr ++ w :: leqt) pivot []
    have hget2 : ((gtr ++ w :: leqt) ++ [pivot]).get? gtr.length = some w := by
      simp only [List.append_assoc, List.cons_append]
      exact getQ_append_len gtr w (leqt ++ [pivot])
    have hswap : swapList ((gtr ++ w :: leqt) ++ [pivot]) (rest.length + 1) gtr.length
        = gtr ++ pivot :: (leqt ++ [w]) := by
      rw [swapList_eq_of_get _ _ _ _ _ hget1 hget2]
      rw [← hlen2, set_append_len (gtr ++ w :: leqt) pivot w []]
      simp only [List.append_assoc, List.cons_append]
      exact set_append_len gtr w pivot (leqt ++ [w])
    rw [hswap]
    rw [drop_append_len gtr pivot (leqt ++ [w]), take_append_len gtr pivot (leqt ++ [w])]
    have hlen3 : (leqt ++ [w]).length = leqt.length + 1 := by simp
    rw [hlen3]

end QuickSortInternal

namespace QuickSortInternal

/-- Master lemma for the split step: on a pool that fits in the fuel bound,
`sgAux` returns `none` only on the empty pool (leaving an empty node), and
otherwise returns the minimum of the pool together with a wellformed state
holding the remaining elements. -/
theorem sgAux_spec : ∀ (fuel : Nat) (g : List α), g.length ≤ fuel + 1 →
    (((sgAux fuel g).1 = none → g = [] ∧ (sgAux fuel g).2 = RecNone []) ∧
     (∀ x, (sgAux fuel g).1 = some x →
        WF (sgAux fuel g).2 ∧ g.Perm (x :: ((sgAux fuel g).2).elems) ∧
        ∀ y ∈ ((sgAux fuel g).2).elems, x ≤ y)) := by
  intro fuel
  induction fuel with
  | zero =>
    intro g hg
    cases g with
    | nil =>
      rw [sgAux_nil]
      exact ⟨fun _ => ⟨rfl, rfl⟩, fun x hx => by simp at hx⟩
    | cons a t =>
      cases t with
      | nil =>
        rw [sgAux_singleton]
        constructor
        · intro h
          simp at h
        · intro x hx
          simp only [Option.some.injEq] at hx
          subst hx
          refine ⟨trivial, List.Perm.refl _, ?_⟩
          intro y hy
          simp [elems] at hy
      | cons b rest =>
        simp only [List.length_cons] at hg
        omega
  | succ fuel ih =>
    intro g hg
    cases g with
    | nil =>
      rw [sgAux_nil]
      exact ⟨fun _ => ⟨rfl, rfl⟩, fun x hx => by simp at hx⟩
    | cons a t =>
      cases t with
      | nil =>
        rw [sgAux_singleton]
        constructor
        · intro h
          simp at h
        · intro x hx
          simp only [Option.some.injEq] at hx
          subst hx
          refine ⟨trivial, List.Perm.refl _, ?_⟩
          intro y hy
          simp [elems] at hy
      | cons b rest =>
        obtain ⟨g1, hg1⟩ : ∃ t1, t1 = swapList (a :: b :: rest) (rest.length + 1)
            ((rest.length + 1 + 1) / 2) := ⟨_, rfl⟩
        obtain ⟨pivot, hpiv⟩ : ∃ p, p = g1.getLastD a := ⟨_, rfl⟩
        obtain ⟨gtr, hgtr⟩ : ∃ t2, t2 = g1.dropLast.filter (fun el => decide (pivot < el)) :=
          ⟨_, rfl⟩
        obtain ⟨leq, hleq⟩ : ∃ t3, t3 = g1.dropLast.filter (fun el => !(decide (pivot < el))) :=
          ⟨_, rfl⟩
        have hg1perm : g1.Perm (a :: b :: rest) := by
          rw [hg1]
          exact swapList_perm _ _ _
        have hlen_g1 : g1.length = rest.length + 1 + 1 := by
          rw [hg1, swapList_length]
          simp
        have hg1ne : g1 ≠ [] := by
          intro h
          rw [h] at hlen_g1
          simp at hlen_g1
        have hdecomp : g1.dropLast ++ [pivot] = g1 := by
          rw [hpiv]
          exact dropLast_append_getLastD _ _ hg1ne
        have hmemG : ∀ z ∈ gtr, pivot < z := by
          intro z hz
          rw [hgtr] at hz
          exact of_decide_eq_true (List.mem_filter.mp hz).2
        have hmemL : ∀ z ∈ leq, z ≤ pivot := by
          intro z hz
          rw [hleq] at hz
          have hb : (!(decide (pivot < z))) = true := (List.mem_filter.mp hz).2
          cases hd : decide (pivot < z) with
          | false => exact le_of_not_lt (of_decide_eq_false hd)
          | true =>
            rw [hd] at hb
            simp at hb
        have hpermGL : (gtr ++ leq).Perm g1.dropLast := by
          rw [hgtr, hleq]
          exact List.filter_append_perm _ _
        have hmaster : (a :: b :: rest).Perm (pivot :: (gtr ++ leq)) := by
          have h1 : (a :: b :: rest).Perm g1 := hg1perm.symm
          have h2 : g1.Perm (g1.dropLast ++ [pivot]) := by rw [hdecomp]
          have h3 : (g1.dropLast ++ [pivot]).Perm (pivot :: g1.dropLast) :=
            List.perm_append_singleton _ _
          have h4 : (pivot :: g1.dropLast).Perm (pivot :: (gtr ++ leq)) :=
            (hpermGL.symm).cons pivot
          exact ((h1.trans h2).trans h3).trans h4
        have hlen_dl : g1.dropLast.length = rest.length + 1 := by
          have hcg := congrArg List.length hdecomp
          rw [List.length_append] at hcg
          simp only [List.length_singleton] at hcg
          omega
        have hlen_fil : gtr.length + leq.length = rest.length + 1 := by
          have hpl := hpermGL.length_eq
          rw [List.length_append] at hpl
          rw [← hlen_dl]
          exact hpl
        cases leq with
        | nil =>
          have hsg : sgAux (fuel + 1) (a :: b :: rest) = (some pivot, RecNone gtr) :=
            sgAux_cons₂ fuel a b rest g1 pivot gtr [] hg1 hpiv hgtr hleq
          rw [hsg]
          constructor
          · intro h
            simp at h
          · intro x hx
            simp only [Option.some.injEq] at hx
            subst hx
            refine ⟨trivial, ?_, ?_⟩
            · have := hmaster
              simpa using this
            · intro y hy
              exact le_of_lt (hmemG y hy)
        | cons w leqt =>
          have hmemLV : ∀ z ∈ leqt ++ [w], z ≤ pivot := by
            intro z hz
            exact hmemL z ((List.perm_append_singleton w leqt).subset hz)
          have hmaster2 : (a :: b :: rest).Perm (pivot :: (gtr ++ (leqt ++ [w]))) := by
            refine hmaster.trans (List.Perm.cons pivot ?_)
            exact List.Perm.append_left gtr ((List.perm_append_singleton w leqt).symm)
          by_cases h32 : leqt.length + 1 ≤ 32
          · -- small split-off pool: a sorted Base child
            have hsg : sgAux (fuel + 1) (a :: b :: rest) =
                ((insertion_sort (leqt ++ [w])).getLast?,
                  RecSome (gtr ++ [pivot]) (Base ((insertion_sort (leqt ++ [w])).dropLast))) := by
              have h0 := sgAux_cons₂ fuel a b rest g1 pivot gtr (w :: leqt) hg1 hpiv hgtr hleq
              rw [h0]
              simp only [if_pos h32]
            obtain ⟨m, hm⟩ := getLast?_isSome_of_ne_nil (insertion_sort (leqt ++ [w])) (by
              intro h
              have hl := insertion_sort_length (leqt ++ [w])
              rw [h] at hl
              simp at hl)
            rw [hsg, hm]
            constructor
            · intro h
              simp at h
            · intro x hx
              simp only [Option.some.injEq] at hx
              subst hx
              refine ⟨⟨?_, by simp, ?_, ?_⟩, ?_, ?_⟩
              · exact List.Pairwise.sublist (List.dropLast_sublist _) (sorted_insertion_sort _)
              · intro y hy p hp
                rw [List.getLast?_concat] at hp
                injection hp with hp
                subst hp
                have hy2 : y ∈ insertion_sort (leqt ++ [w]) := (List.dropLast_sublist _).subset hy
                exact hmemLV y ((insertion_sort_perm _).subset hy2)
              · intro p hp z hz
                rw [List.getLast?_concat] at hp
                injection hp with hp
                subst hp
                rw [List.dropLast_concat] at hz
                exact le_of_lt (hmemG z hz)
              · -- permutation
                have hd := dropLast_append_of_getLast? _ m hm
                have hms : (m :: (insertion_sort (leqt ++ [w])).dropLast).Perm (leqt ++ [w]) := by
                  have h1 : (m :: (insertion_sort (leqt ++ [w])).dropLast).Perm
                      ((insertion_sort (leqt ++ [w])).dropLast ++ [m]) :=
                    (List.perm_append_singleton m _).symm
                  rw [hd] at h1
                  exact h1.trans (insertion_sort_perm _)
                have h2 : (m :: ((gtr ++ [pivot]) ++ (insertion_sort (leqt ++ [w])).dropLast)).Perm
                    ((gtr ++ [pivot]) ++ (m :: (insertion_sort (leqt ++ [w])).dropLast)) :=
                  List.perm_middle.symm
                have h3 : ((gtr ++ [pivot]) ++ (m :: (insertion_sort (leqt ++ [w])).dropLast)).Perm
                    ((gtr ++ [pivot]) ++ (leqt ++ [w])) :=
                  List.Perm.append_left _ hms
                have h4 : ((gtr ++ [pivot]) ++ (leqt ++ [w])).Perm
                    (pivot :: (gtr ++ (leqt ++ [w]))) := by
                  have he : (gtr ++ [pivot]) ++ (leqt ++ [w]) = gtr ++ (pivot :: (leqt ++ [w])) := by
                    simp [List.append_assoc]
                  rw [he]
                  exact List.perm_middle
                exact hmaster2.trans (((h2.trans h3).trans h4).symm)
              · -- minimality
                have hmle : m ≤ pivot :=
                  hmemLV m ((insertion_sort_perm _).subset (mem_of_getLast?_eq _ _ hm))
                intro y hy
                rcases List.mem_append.mp hy with hy | hy
                · rcases List.mem_append.mp hy with hy | hy
                  · exact le_trans hmle (le_of_lt (hmemG y hy))
                  · rw [List.mem_singleton] at hy
                    exact hy ▸ hmle
                · exact sortedDesc_getLast_min _ (sorted_insertion_sort _) m hm y
                    ((List.dropLast_sublist _).subset hy)
          · -- large split-off pool: a recursive child stepped once
            have hsg : sgAux (fuel + 1) (a :: b :: rest) =
                ((sgAux fuel (leqt ++ [w])).1,
                  RecSome (gtr ++ [pivot]) ((sgAux fuel (leqt ++ [w])).2)) := by
              have h0 := sgAux_cons₂ fuel a b rest g1 pivot gtr (w :: leqt) hg1 hpiv hgtr hleq
              rw [h0]
              simp only [if_neg h32]
            have hlen_le : (leqt ++ [w]).length ≤ fuel + 1 := by
              simp only [List.length_cons] at hg hlen_fil ⊢
              simp only [List.length_append, List.length_singleton]
              omega
            have hspec := ih (leqt ++ [w]) hlen_le
            cases hr : (sgAux fuel (leqt ++ [w])).1 with
            | none =>
              have hcontra := (hspec.1 hr).1
              simp at hcontra
            | some x2 =>
              obtain ⟨hWF2, hPerm2, hMin2⟩ := hspec.2 x2 hr
              rw [hsg, hr]
              constructor
              · intro h
                simp at h
              · intro x hx
                simp only [Option.some.injEq] at hx
                subst hx
                refine ⟨⟨hWF2, by simp, ?_, ?_⟩, ?_, ?_⟩
                · intro y hy p hp
                  rw [List.getLast?_concat] at hp
                  injection hp with hp
                  subst hp
                  have hmem : y ∈ leqt ++ [w] :=
                    hPerm2.symm.subset (List.mem_cons_of_mem x2 hy)
                  exact hmemLV y hmem
                · intro p hp z hz
                  rw [List.getLast?_concat] at hp
                  injection hp with hp
                  subst hp
                  rw [List.dropLast_concat] at hz
                  exact le_of_lt (hmemG z hz)
                · -- permutation
                  have hA : (x2 :: ((gtr ++ [pivot]) ++ ((sgAux fuel (leqt ++ [w])).2).elems)).Perm
                      (x2 :: (pivot :: (gtr ++ ((sgAux fuel (leqt ++ [w])).2).elems))) := by
                    refine List.Perm.cons x2 ?_
                    have he : (gtr ++ [pivot]) ++ ((sgAux fuel (leqt ++ [w])).2).elems
                        = gtr ++ (pivot :: ((sgAux fuel (leqt ++ [w])).2).elems) := by
                      simp [List.append_assoc]
                    rw [he]
                    exact List.perm_middle
                  have hB : (pivot :: (gtr ++ (leqt ++ [w]))).Perm
                      (pivot :: (x2 :: (gtr ++ ((sgAux fuel (leqt ++ [w])).2).elems))) := by
                    refine List.Perm.cons pivot ?_
                    exact (List.Perm.append_left gtr hPerm2).trans List.perm_middle
                  exact ((hmaster2.trans hB).trans
                    (List.Perm.swap x2 pivot _)).trans hA.symm
                · -- minimality
                  have hx2piv : x2 ≤ pivot :=
                    hmemLV x2 (hPerm2.symm.subset (List.mem_cons_self x2 _))
                  intro y hy
                  rcases List.mem_append.mp hy with hy | hy
                  · rcases List.mem_append.mp hy with hy | hy
                    · exact le_trans hx2piv (le_of_lt (hmemG y hy))
                    · rw [List.mem_singleton] at hy
                      exact hy ▸ hx2piv
                  · exact hMin2 y hy

end QuickSortInternal

namespace QuickSortInternal

/-- Step theorem: from a wellformed state, `next` returns `none` exactly on
the empty state (leaving the state unchanged), and otherwise produces the
minimum of the remaining elements, preserving wellformedness and removing
exactly the produced element. -/
theorem next_spec : ∀ s : QuickSortInternal α, WF s →
    (((next s).1 = none → s.elems = [] ∧ (next s).2 = s) ∧
     (∀ x, (next s).1 = some x →
        WF (next s).2 ∧ s.elems.Perm (x :: ((next s).2).elems) ∧
        ∀ y ∈ ((next s).2).elems, x ≤ y)) := by
  intro s
  induction s with
  | Base v =>
    intro hwf
    have hsv : List.Sorted (fun u w => w ≤ u) v := hwf
    constructor
    · intro h
      have hv : v.getLast? = none := h
      have hnil : v = [] := List.getLast?_eq_none_iff.mp hv
      subst hnil
      exact ⟨rfl, rfl⟩
    · intro x hx
      have hv : v.getLast? = some x := hx
      refine ⟨?_, ?_, ?_⟩
      · exact List.Pairwise.sublist (List.dropLast_sublist _) hsv
      · have hd := dropLast_append_of_getLast? v x hv
        have h1 : (v.dropLast ++ [x]).Perm (x :: v.dropLast) :=
          List.perm_append_singleton _ _
        rw [hd] at h1
        exact h1
      · intro y hy
        exact sortedDesc_getLast_min v hsv x hv y ((List.dropLast_sublist _).subset hy)
  | RecNone g =>
    intro _
    have hspec := sgAux_spec g.length g (Nat.le_succ _)
    constructor
    · intro h
      obtain ⟨hge, hs2⟩ := hspec.1 h
      subst hge
      exact ⟨rfl, hs2⟩
    · intro x hx
      exact hspec.2 x hx
  | RecSome g l ihl =>
    intro hwf
    have hwf' : WF l ∧ g ≠ [] ∧
        (∀ y ∈ l.elems, ∀ p, g.getLast? = some p → y ≤ p) ∧
        (∀ p, g.getLast? = some p → ∀ z ∈ g.dropLast, p ≤ z) := hwf
    obtain ⟨hwl, hgne, hle, hpivmin⟩ := hwf'
    obtain ⟨p, hp⟩ := getLast?_isSome_of_ne_nil g hgne
    have ihl2 := ihl hwl
    cases hn : next l with
    | mk o l2 =>
      cases o with
      | some x =>
        have hnexts : next (RecSome g l) = (some x, RecSome g l2) := by
          simp [next, hn]
        rw [hnexts]
        obtain ⟨hW2, hP2, hM2⟩ := ihl2.2 x (by rw [hn])
        have hW2' : WF l2 := by rwa [hn] at hW2
        have hP2' : l.elems.Perm (x :: l2.elems) := by rwa [hn] at hP2
        have hM2' : ∀ y ∈ l2.elems, x ≤ y := by rwa [hn] at hM2
        constructor
        · intro h
          simp at h
        · intro x' hx'
          simp only [Option.some.injEq] at hx'
          subst hx'
          have hxl : x ∈ l.elems := hP2'.symm.subset (List.mem_cons_self x _)
          have hxp : x ≤ p := hle x hxl p hp
          refine ⟨⟨hW2', hgne, ?_, hpivmin⟩, ?_, ?_⟩
          · intro y hy p2 hp2
            have hyl : y ∈ l.elems := hP2'.symm.subset (List.mem_cons_of_mem x hy)
            exact hle y hyl p2 hp2
          · have h1 : (g ++ l.elems).Perm (g ++ (x :: l2.elems)) :=
              List.Perm.append_left g hP2'
            exact h1.trans List.perm_middle
          · intro y hy
            rcases List.mem_append.mp hy with hy | hy
            · have hgdecomp := dropLast_append_of_getLast? g p hp
              rw [← hgdecomp] at hy
              rcases List.mem_append.mp hy with hy | hy
              · exact le_trans hxp (hpivmin p hp y hy)
              · rw [List.mem_singleton] at hy
                exact hy ▸ hxp
            · exact hM2' y hy
      | none =>
        have hnexts : next (RecSome g l) = (g.getLast?, RecNone g.dropLast) := by
          simp [next, hn]
        rw [hnexts, hp]
        have hlnil : l.elems = [] := by
          have := ihl2.1 (by rw [hn])
          exact this.1
        constructor
        · intro h
          simp at h
        · intro x hx
          simp only [Option.some.injEq] at hx
          subst hx
          refine ⟨trivial, ?_, ?_⟩
          · show (g ++ l.elems).Perm (p :: g.dropLast)
            rw [hlnil, List.append_nil]
            have hgdecomp := dropLast_append_of_getLast? g p hp
            have h1 : (g.dropLast ++ [p]).Perm (p :: g.dropLast) :=
              List.perm_append_singleton _ _
            rw [hgdecomp] at h1
            exact h1
          · intro y hy
            exact hpivmin p hp y hy

end QuickSortInternal

namespace QuickSortInternal

theorem WF_next (s : QuickSortInternal α) (hwf : WF s) : WF (next s).2 := by
  cases h : (next s).1 with
  | none =>
    have := ((next_spec s hwf).1 h).2
    rw [this]
    exact hwf
  | some x => exact (((next_spec s hwf).2 x h)).1

theorem WF_new (v : List α) : WF (new (α := α) v) := by
  unfold new
  split
  · exact sorted_insertion_sort v
  · trivial

theorem elems_new_perm (v : List α) : (new (α := α) v).elems.Perm v := by
  unfold new
  split
  · exact insertion_sort_perm v
  · exact List.Perm.refl _

theorem WF_stepN : ∀ (i : Nat) (s : QuickSortInternal α), WF s → WF (stepN s i) := by
  intro i
  induction i with
  | zero =>
    intro s hwf
    exact hwf
  | succ i ih =>
    intro s hwf
    show WF (stepN (next s).2 i)
    exact ih _ (WF_next s hwf)

theorem elems_stepN_length : ∀ (i : Nat) (s : QuickSortInternal α), WF s →
    i ≤ s.elems.length → ((stepN s i).elems).length = s.elems.length - i := by
  intro i
  induction i with
  | zero =>
    intro s _ _
    simp [stepN]
  | succ i ih =>
    intro s hwf hi
    cases hn : (next s).1 with
    | none =>
      have hnil := ((next_spec s hwf).1 hn).1
      rw [hnil] at hi
      simp at hi
    | some x =>
      have hlen : s.elems.length = ((next s).2).elems.length + 1 := by
        have := (((next_spec s hwf).2 x hn)).2.1.length_eq
        simpa using this
      have h2 := ih (next s).2 (WF_next s hwf) (by omega)
      show ((stepN (next s).2 i).elems).length = s.elems.length - (i + 1)
      rw [h2]
      omega

theorem size_hint_eq (s : QuickSortInternal α) :
    size_hint s = (s.elems.length, some s.elems.length) := by
  induction s with
  | Base v => rfl
  | RecNone g => rfl
  | RecSome g l ihl =>
    show ((size_hint l).1 + g.length, (size_hint l).2.map (fun u => u + g.length))
      = ((g ++ l.elems).length, some (g ++ l.elems).length)
    rw [ihl]
    simp [List.length_append, Nat.add_comm]

theorem toListAux_spec : ∀ (f : Nat) (s : QuickSortInternal α), WF s →
    s.elems.length ≤ f →
    (toListAux f s).Perm s.elems ∧
    List.Sorted (fun u w => u ≤ w) (toListAux f s) := by
  intro f
  induction f with
  | zero =>
    intro s _ hlen
    have hnil : s.elems = [] := List.length_eq_zero.mp (Nat.le_zero.mp hlen)
    rw [hnil]
    exact ⟨List.Perm.refl _, List.sorted_nil⟩
  | succ f ih =>
    intro s hwf hlen
    cases hn : next s with
    | mk o s2 =>
      cases o with
      | none =>
        have hnil := ((next_spec s hwf).1 (by rw [hn])).1
        have ht : toListAux (f + 1) s = [] := by
          simp [toListAux, hn]
        rw [ht, hnil]
        exact ⟨List.Perm.refl _, List.sorted_nil⟩
      | some x =>
        obtain ⟨hW, hP, hM⟩ := (next_spec s hwf).2 x (by rw [hn])
        have hW' : WF s2 := by rwa [hn] at hW
        have hP' : s.elems.Perm (x :: s2.elems) := by rwa [hn] at hP
        have hM' : ∀ y ∈ s2.elems, x ≤ y := by rwa [hn] at hM
        have hlen2 : s2.elems.length ≤ f := by
          have := hP'.length_eq
          simp at this
          omega
        obtain ⟨ihP, ihS⟩ := ih s2 hW' hlen2
        have ht : toListAux (f + 1) s = x :: toListAux f s2 := by
          simp [toListAux, hn]
        rw [ht]
        constructor
        · exact (ihP.cons x).trans hP'.symm
        · rw [List.sorted_cons]
          exact ⟨fun b hb => hM' b (ihP.subset hb), ihS⟩

theorem toList_spec (s : QuickSortInternal α) (hwf : WF s) :
    (toList s).Perm s.elems ∧ List.Sorted (fun u w => u ≤ w) (toList s) :=
  toListAux_spec _ s hwf (le_refl _)

end QuickSortInternal

theorem sortAsc_perm (v : List α) : (sortAsc v).Perm v :=
  List.perm_insertionSort _ v

theorem sortAsc_sorted (v : List α) :
    List.Sorted (fun a b => a ≤ b) (sortAsc v) :=
  List.sorted_insertionSort _ v

theorem quickSorted_eq_sortAsc (v : List α) : quickSorted v = sortAsc v := by
  have hwf := QuickSortInternal.WF_new (α := α) v
  obtain ⟨hperm, hsorted⟩ := QuickSortInternal.toList_spec _ hwf
  have hperm2 : (quickSorted v).Perm v :=
    hperm.trans (QuickSortInternal.elems_new_perm v)
  exact List.eq_of_perm_of_sorted (hperm2.trans (sortAsc_perm v).symm) hsorted
    (sortAsc_sorted v)

theorem heapSorted_eq_sortAsc (v : List α) : heapSorted v = sortAsc v := rfl

namespace HeapSort

theorem stepN_elems : ∀ (i : Nat) (s : HeapSort α),
    (stepN s i).elems = s.elems.drop i := by
  intro i
  induction i with
  | zero =>
    intro s
    rfl
  | succ i ih =>
    intro s
    cases s with
    | mk es =>
      cases es with
      | nil =>
        show (stepN (⟨[]⟩ : HeapSort α) i).elems = []
        rw [ih]
        simp
      | cons x t =>
        show (stepN (⟨t⟩ : HeapSort α) i).elems = (x :: t).drop (i + 1)
        rw [ih]
        rfl

end HeapSort

theorem WF_implies_lessChainLe (s : QuickSortInternal α) (hwf : WF s) :
    lessChainLe s = true := by
  induction s with
  | Base v => rfl
  | RecNone g => rfl
  | RecSome g l ihl =>
    have hwf' : WF l ∧ g ≠ [] ∧
        (∀ y ∈ l.elems, ∀ p, g.getLast? = some p → y ≤ p) ∧
        (∀ p, g.getLast? = some p → ∀ z ∈ g.dropLast, p ≤ z) := hwf
    obtain ⟨hwl, hgne, hle, _⟩ := hwf'
    obtain ⟨p, hp⟩ := getLast?_isSome_of_ne_nil g hgne
    show (lessChainLe l &&
      (match g.getLast? with
       | none => true
       | some p => l.elems.all (fun y => decide (y ≤ p)))) = true
    rw [hp, ihl hwl, Bool.true_and, List.all_eq_true]
    intro y hy
    exact decide_eq_true (hle y hy p hp)

/-! ### Claim theorems -/

/-- Claim C1, counterexample: as stated, the first `k` produced elements of the
quicksort iterator should match the first `k` elements of the fully sorted
sequence under the spec's documented direction for that strategy, which is
descending; already for input `[1, 2]` and `k = 1` the iterator produces `1`
while the descending sort starts with `2`. -/
theorem c1_counterexample :
    ¬ ((quickSorted ([1, 2] : List ℕ)).take 1 = (sortDesc ([1, 2] : List ℕ)).take 1) := by
  decide

/-- Claim C1 (amended): for every input `v` and every `k ≤ |v|`, the first `k`
elements produced by the lazy quicksort iterator and by the heap iterator both
equal the first `k` elements of the ascending fully sorted sequence (both
strategies produce in ascending order). -/
theorem c1_prefix_correct (v : List α) (k : Nat) (hk : k ≤ v.length) :
    (quickSorted v).take k = (sortAsc v).take k ∧
    (heapSorted v).take k = (sortAsc v).take k := by
  rw [quickSorted_eq_sortAsc, heapSorted_eq_sortAsc]
  exact ⟨rfl, rfl⟩

/-- Witness for C1 at the concrete input `[3, 1, 2]` with `k = 2`. -/
theorem c1_prefix_correct_witness :
    2 ≤ ([3, 1, 2] : List ℕ).length ∧
    ((quickSorted ([3, 1, 2] : List ℕ)).take 2 = (sortAsc ([3, 1, 2] : List ℕ)).take 2 ∧
     (heapSorted ([3, 1, 2] : List ℕ)).take 2 = (sortAsc ([3, 1, 2] : List ℕ)).take 2) :=
  ⟨by decide, c1_prefix_correct [3, 1, 2] 2 (by decide)⟩

/-- Claim C2, counterexample: as stated, a full drain of the quicksort iterator
should yield the input multiset arranged in the spec's documented direction for
that strategy (descending); on input `[1, 2]` it yields `[1, 2]`, not the
descending `[2, 1]`. -/
theorem c2_counterexample :
    ¬ (quickSorted ([1, 2] : List ℕ) = sortDesc ([1, 2] : List ℕ)) := by
  decide

/-- Claim C2 (amended): fully draining either iterator yields exactly the
input multiset (a permutation of the input, so every element appears with its
multiplicity and no others) arranged in ascending sorted order, for both
strategies. -/
theorem c2_full_drain (v : List α) :
    (quickSorted v).Perm v ∧ quickSorted v = sortAsc v ∧
    (heapSorted v).Perm v ∧ heapSorted v = sortAsc v := by
  refine ⟨?_, quickSorted_eq_sortAsc v, ?_, heapSorted_eq_sortAsc v⟩
  · rw [quickSorted_eq_sortAsc]
    exact sortAsc_perm v
  · rw [heapSorted_eq_sortAsc]
    exact sortAsc_perm v

/-- Claim C3, counterexample: the quicksort iterator on
`[2, 4, 2, 5, 8, 4, 3, 4, 6]` does not produce the claimed descending
sequence `[8, 6, 5, 4, 4, 4, 3, 2, 2]`. -/
theorem c3_counterexample :
    ¬ (quickSorted ([2, 4, 2, 5, 8, 4, 3, 4, 6] : List ℕ)
        = [8, 6, 5, 4, 4, 4, 3, 2, 2]) := by
  decide

/-- Claim C3 (amended): successive `next()` calls on the quicksort iterator
yield elements in ascending order, and on input `[2, 4, 2, 5, 8, 4, 3, 4, 6]`
it produces exactly `[2, 2, 3, 4, 4, 4, 5, 6, 8]` (matching the crate's own
`test_sort`, which compares against an ascending `sort()`). -/
theorem c3_quick_ascending :
    (∀ (β : Type) [LinearOrder β] (v : List β),
      List.Sorted (fun u w => u ≤ w) (quickSorted v)) ∧
    quickSorted ([2, 4, 2, 5, 8, 4, 3, 4, 6] : List ℕ)
      = [2, 2, 3, 4, 4, 4, 5, 6, 8] := by
  constructor
  · intro β _ v
    rw [quickSorted_eq_sortAsc]
    exact sortAsc_sorted v
  · decide

/-- Claim C4 (confirmed): after `i` calls to `next()` on an input of length
`n`, with `i ≤ n`, `size_hint` of either iterator is exactly
`(n - i, some (n - i))`. -/
theorem c4_size_hint_exact (v : List α) (i : Nat) (hi : i ≤ v.length) :
    (QuickSortInternal.stepN (quick_sort v) i).size_hint
      = (v.length - i, some (v.length - i)) ∧
    (HeapSort.stepN (heap_sort v) i).size_hint
      = (v.length - i, some (v.length - i)) := by
  constructor
  · rw [QuickSortInternal.size_hint_eq]
    have hlen0 : (quick_sort v).elems.length = v.length :=
      (QuickSortInternal.elems_new_perm v).length_eq
    have hstep := QuickSortInternal.elems_stepN_length i (quick_sort v)
      (QuickSortInternal.WF_new v) (by rw [hlen0]; exact hi)
    rw [hstep, hlen0]
  · show ((HeapSort.stepN (heap_sort v) i).elems.length,
        some (HeapSort.stepN (heap_sort v) i).elems.length)
      = (v.length - i, some (v.length - i))
    rw [HeapSort.stepN_elems]
    have hh : (heap_sort v).elems = sortAsc v := rfl
    rw [hh, List.length_drop, (sortAsc_perm v).length_eq]

/-- Witness for C4 at the concrete input `[5, 1, 4]` with `i = 2`. -/
theorem c4_size_hint_exact_witness :
    2 ≤ ([5, 1, 4] : List ℕ).length ∧
    ((QuickSortInternal.stepN (quick_sort ([5, 1, 4] : List ℕ)) 2).size_hint
        = (([5, 1, 4] : List ℕ).length - 2, some (([5, 1, 4] : List ℕ).length - 2)) ∧
     (HeapSort.stepN (heap_sort ([5, 1, 4] : List ℕ)) 2).size_hint
        = (([5, 1, 4] : List ℕ).length - 2, some (([5, 1, 4] : List ℕ).length - 2))) :=
  ⟨by decide, c4_size_hint_exact [5, 1, 4] 2 (by decide)⟩

/-- Claim C5 (confirmed): successive `next()` calls on the heap iterator (a
max-heap over `ReverseOrder` wrappers) yield elements in ascending order, and
on input `[2, 4, 2, 5, 8, 4, 3, 4, 6]` it produces exactly
`[2, 2, 3, 4, 4, 4, 5, 6, 8]`. -/
theorem c5_heap_ascending :
    (∀ (β : Type) [LinearOrder β] (v : List β),
      List.Sorted (fun u w => u ≤ w) (heapSorted v)) ∧
    heapSorted ([2, 4, 2, 5, 8, 4, 3, 4, 6] : List ℕ)
      = [2, 2, 3, 4, 4, 4, 5, 6, 8] := by
  constructor
  · intro β _ v
    rw [heapSorted_eq_sortAsc]
    exact sortAsc_sorted v
  · decide

/-- Claim C6 (confirmed): once `next()` has returned `none` on a reachable
state of either iterator, every further call returns `none` again with the
state unchanged; producing from an empty input immediately yields `none` with
a `(0, some 0)` size hint. -/
theorem c6_exhaustion_noop :
    (∀ (v : List α) (i : Nat),
      (QuickSortInternal.next (QuickSortInternal.stepN (quick_sort v) i)).1 = none →
        (QuickSortInternal.next (QuickSortInternal.stepN (quick_sort v) i)).2
          = QuickSortInternal.stepN (quick_sort v) i ∧
        (QuickSortInternal.next
          ((QuickSortInternal.next (QuickSortInternal.stepN (quick_sort v) i)).2)).1 = none) ∧
    (∀ h : HeapSort α, (HeapSort.next h).1 = none →
        (HeapSort.next h).2 = h ∧ (HeapSort.next (HeapSort.next h).2).1 = none) ∧
    (QuickSortInternal.next (quick_sort ([] : List α))).1 = none ∧
    (quick_sort ([] : List α)).size_hint = (0, some 0) ∧
    (HeapSort.next (heap_sort ([] : List α))).1 = none ∧
    (heap_sort ([] : List α)).size_hint = (0, some 0) := by
  refine ⟨?_, ?_, rfl, rfl, rfl, rfl⟩
  · intro v i h
    have hwf : WF (QuickSortInternal.stepN (quick_sort v) i) :=
      QuickSortInternal.WF_stepN i _ (QuickSortInternal.WF_new v)
    have hres := (QuickSortInternal.next_spec _ hwf).1 h
    refine ⟨hres.2, ?_⟩
    rw [hres.2]
    exact h
  · intro h hnone
    cases h with
    | mk es =>
      cases es with
      | nil => exact ⟨rfl, rfl⟩
      | cons x t => simp [HeapSort.next] at hnone

/-- Witness for C6: the quicksort iterator on `[1]` is exhausted after one
step, and the heap iterator state with no elements is exhausted. -/
theorem c6_exhaustion_noop_witness :
    ((QuickSortInternal.next (QuickSortInternal.stepN (quick_sort ([1] : List ℕ)) 1)).1 = none ∧
      (QuickSortInternal.next (QuickSortInternal.stepN (quick_sort ([1] : List ℕ)) 1)).2
        = QuickSortInternal.stepN (quick_sort ([1] : List ℕ)) 1 ∧
      (QuickSortInternal.next
        ((QuickSortInternal.next (QuickSortInternal.stepN (quick_sort ([1] : List ℕ)) 1)).2)).1
        = none) ∧
    ((HeapSort.next (⟨[]⟩ : HeapSort ℕ)).1 = none ∧
      (HeapSort.next (⟨[]⟩ : HeapSort ℕ)).2 = (⟨[]⟩ : HeapSort ℕ) ∧
      (HeapSort.next (HeapSort.next (⟨[]⟩ : HeapSort ℕ)).2).1 = none) := by
  have hq := c6_exhaustion_noop (α := ℕ)
  refine ⟨⟨by decide, hq.1 [1] 1 (by decide)⟩, by decide, hq.2.1 ⟨[]⟩ (by decide)⟩

/-- Claim C7 (confirmed): for a nonempty slice whose last element is the
pivot, the partition pass permutes the elements before the pivot so that
every element strictly greater than the pivot precedes every element not
greater than it, and returns the index (within the slice excluding the
pivot) of the first element of the not-greater region. -/
theorem c7_partition_contract (l : List α) (hne : l ≠ []) :
    ((LazySort.partition (fun el => decide (l.getLast hne < el)) l.dropLast).1).Perm
      l.dropLast ∧
    (LazySort.partition (fun el => decide (l.getLast hne < el)) l.dropLast).2
      ≤ ((LazySort.partition (fun el => decide (l.getLast hne < el)) l.dropLast).1).length ∧
    (∀ x ∈ ((LazySort.partition (fun el => decide (l.getLast hne < el)) l.dropLast).1).take
        ((LazySort.partition (fun el => decide (l.getLast hne < el)) l.dropLast).2),
      l.getLast hne < x) ∧
    (∀ x ∈ ((LazySort.partition (fun el => decide (l.getLast hne < el)) l.dropLast).1).drop
        ((LazySort.partition (fun el => decide (l.getLast hne < el)) l.dropLast).2),
      x ≤ l.getLast hne) := by
  refine ⟨List.filter_append_perm _ _, ?_, ?_, ?_⟩
  · simp only [LazySort.partition, List.length_append]
    exact Nat.le_add_right _ _
  · intro x hx
    simp only [LazySort.partition, List.take_left] at hx
    exact of_decide_eq_true (List.mem_filter.mp hx).2
  · intro x hx
    simp only [LazySort.partition, List.drop_left] at hx
    have hb : (!(decide (l.getLast hne < x))) = true := (List.mem_filter.mp hx).2
    cases hd : decide (l.getLast hne < x) with
    | false => exact le_of_not_lt (of_decide_eq_false hd)
    | true =>
      rw [hd] at hb
      simp at hb

/-- Witness for C7 at the concrete slice `[2, 1, 3]` (pivot `3`). -/
theorem c7_partition_contract_witness :
    ([2, 1, 3] : List ℕ) ≠ [] ∧
    (∀ x ∈ ((LazySort.partition
        (fun el => decide (([2, 1, 3] : List ℕ).getLast (by decide) < el))
        ([2, 1, 3] : List ℕ).dropLast).1).drop
        ((LazySort.partition
          (fun el => decide (([2, 1, 3] : List ℕ).getLast (by decide) < el))
          ([2, 1, 3] : List ℕ).dropLast).2),
      x ≤ ([2, 1, 3] : List ℕ).getLast (by decide)) :=
  ⟨by decide, (c7_partition_contract [2, 1, 3] (by decide)).2.2.2⟩

/-- Claim C8, counterexample: the claim that every element of a `less` child
is strictly less than the pivot above it fails on the reachable state after
one `next()` on 33 equal elements: the `less` child then holds 31 copies of
the pivot value itself. -/
theorem c8_counterexample :
    ¬ (lessChainStrict
        (QuickSortInternal.stepN (quick_sort (List.replicate 33 (0 : ℕ))) 1) = true) := by
  decide

/-- Claim C8 (amended): at every reachable state of the quicksort core, every
element stored in a `less` child is less than or equal to the pivot above it
in the chain (the last element of the parent node's `greater` buffer);
equality can occur because the partition predicate is strict greater-than, so
duplicates of the pivot land on the `less` side. -/
theorem c8_le_invariant (v : List α) (i : Nat) :
    lessChainLe (QuickSortInternal.stepN (quick_sort v) i) = true :=
  WF_implies_lessChainLe _ (QuickSortInternal.WF_stepN i _ (QuickSortInternal.WF_new v))

/-- Claim C9 (confirmed): a newly constructed pool of length at most 32 is
insertion-sorted descending and stored as a `Base` node (a permutation of the
pool, sorted descending), a `Base` node produces by popping from the end, a
pool longer than 32 becomes a `Recursive` node, and inputs of length exactly
32 and exactly 33 are both sorted correctly. -/
theorem c9_threshold :
    (∀ v : List α, v.length ≤ 32 →
        quick_sort v = QuickSortInternal.Base (insertion_sort v) ∧
        List.Sorted (fun u w => w ≤ u) (insertion_sort v) ∧
        (insertion_sort v).Perm v) ∧
    (∀ v : List α, 32 < v.length → quick_sort v = QuickSortInternal.RecNone v) ∧
    (∀ w : List α, QuickSortInternal.next (QuickSortInternal.Base w)
        = (w.getLast?, QuickSortInternal.Base w.dropLast)) ∧
    quickSorted ((List.range 32).reverse) = List.range 32 ∧
    quickSorted ((List.range 33).reverse) = List.range 33 := by
  refine ⟨?_, ?_, fun w => rfl, by decide, by decide⟩
  · intro v hv
    refine ⟨?_, sorted_insertion_sort v, insertion_sort_perm v⟩
    unfold quick_sort QuickSortInternal.new
    rw [if_pos hv]
  · intro v hv
    unfold quick_sort QuickSortInternal.new
    rw [if_neg (by omega)]

/-- Witness for C9: the threshold rule applied at lengths 2 and 33. -/
theorem c9_threshold_witness :
    (([2, 1] : List ℕ).length ≤ 32 ∧
      quick_sort ([2, 1] : List ℕ) = QuickSortInternal.Base (insertion_sort [2, 1])) ∧
    (32 < (List.range 33).length ∧
      quick_sort (List.range 33) = QuickSortInternal.RecNone (List.range 33)) :=
  ⟨⟨by decide, (c9_threshold.1 [2, 1] (by decide)).1⟩,
   ⟨by decide, c9_threshold.2.1 (List.range 33) (by decide)⟩⟩

/-- Claim C10, counterexample: as stated the two strategies should agree after
reversing one of the outputs; but both produce ascending order, so on `[1, 2]`
the quicksort output `[1, 2]` differs from the reversed heap output `[2, 1]`. -/
theorem c10_counterexample :
    ¬ (quickSorted ([1, 2] : List ℕ) = (heapSorted ([1, 2] : List ℕ)).reverse) := by
  decide

/-- Claim C10 (amended): for every input, the quicksort iterator and the heap
iterator produce identical output sequences element-for-element with no
reversal needed: both already produce in the same (ascending) direction. -/
theorem c10_strategies_agree (v : List α) : quickSorted v = heapSorted v := by
  rw [quickSorted_eq_sortAsc, heapSorted_eq_sortAsc]

end LazySort
